import Mathlib

/-!
Shallow embedding of the ChatDatabase repository (README collector,
README summarizer, knowledge-base vector index builder) and proofs of
the specification claims about it.

Sources embedded:
* `database/test_getall_repo.py` — `DatawhaleRepoCollector`
  (`get_organization_repos`, `get_repo_readme`, `collect_all_readmes`,
  `save_collection_summary`).
* `database/text_summary_readme.py` — `ReadmeSummarizer`
  (`setup_llm`, `filter_content`, `generate_summary_zhipuai`,
  `generate_summary_openai`, `generate_summary`, `process_all_readmes`).
* `database/create_db.py` — `KnowledgeBaseLoader`
  (`__init__`, `create_vector_db`).
-/

namespace ChatDatabase

/-! ## Collector: `get_repo_readme`

The Python method iterates over a fixed candidate list; for each
candidate it issues a contents request.  A raised exception anywhere in
the loop body is caught and the next candidate is tried.  A `200`
response whose JSON carries `encoding == "base64"` has its `content`
base64-decoded and returned; any other response falls through to the
next candidate.  We model a per-candidate API response as an optional
`ContentResponse` (`none` = the request or JSON parsing raised) and the
base64 decoding step as a partial function (`none` = decoding raised,
which the `except` clause turns into "try next candidate"). -/

structure ContentResponse where
  status : Nat
  encoding : Option String
  content : String
  deriving Repr, DecidableEq

/-- The fixed candidate list `readme_files` from `get_repo_readme`. -/
def readme_files : List String :=
  ["README.md", "readme.md", "README.txt", "readme.txt", "README"]

/-- One iteration of the loop body of `get_repo_readme`: the value the
`try` block returns for a single candidate (`none` means fall through
to the next candidate). -/
def tryCandidate (b64 : String → Option String)
    (resp : Option ContentResponse) : Option String :=
  match resp with
  | none => none
  | some r =>
    if r.status = 200 then
      if r.encoding = some "base64" then b64 r.content else none
    else none

/-- Model of `get_repo_readme`, parameterized by the decode partial function and
by the API (candidate filename ↦ response). -/
def get_repo_readme (b64 : String → Option String)
    (api : String → Option ContentResponse) : Option String :=
  go readme_files
where
  go : List String → Option String
    | [] => none
    | f :: rest =>
      match tryCandidate b64 (api f) with
      | some c => some c
      | none => go rest

/-! ## Summarizer: `filter_content`

`filter_content` first substitutes `[URL]` for every match of
`url_pattern` and then, word by word in the order of
`sensitive_words`, substitutes `[敏感信息]` for every case-insensitive
occurrence of the word.

The compiled regex is
`http[s]?://(?:[a-zA-Z]|[0-9]|[$-_@.&+]|[!*\\(\\),]|(?:%[0-9a-fA-F][0-9a-fA-F]))+`.
Inside a character class `$-_` is the code-point range 0x24–0x5F, which
already contains the digits, the upper-case letters, `%`, `(`, `)`,
`*`, `+`, `,`, `.`, `/`, `:`, `@`, `\`, `[`, `]`, `_` and the hex
letters; `[a-zA-Z]` adds the lower-case letters and `[!*\\(\\),]` adds
`!`.  The `%hh` alternative is therefore subsumed: every character it
can consume already lies in the union.  So the repeated group matches
exactly a nonempty run of characters from
`{0x21} ∪ [0x24,0x5F] ∪ [0x61,0x7A]`, and Python's leftmost greedy
`sub` replaces, at each position, `http://` or `https://` followed by
the maximal such run (of length ≥ 1). -/

/-- Characters matched by the repeated group of `url_pattern`. -/
def isUrlChar (c : Char) : Bool :=
  c.toNat = 33 || (36 ≤ c.toNat && c.toNat ≤ 95) ||
    (97 ≤ c.toNat && c.toNat ≤ 122)

/-- Length of the maximal run of URL-class characters at the head. -/
def urlRun (l : List Char) : Nat :=
  (l.takeWhile isUrlChar).length

/-- Length of the `url_pattern` match starting at the head of `l`
(`none` if no match starts there). -/
def matchUrlLen (l : List Char) : Option Nat :=
  if l.take 8 = ['h', 't', 't', 'p', 's', ':', '/', '/'] then
    if 0 < urlRun (l.drop 8) then some (8 + urlRun (l.drop 8)) else none
  else if l.take 7 = ['h', 't', 't', 'p', ':', '/', '/'] then
    if 0 < urlRun (l.drop 7) then some (7 + urlRun (l.drop 7)) else none
  else none

theorem matchUrlLen_pos {l : List Char} {n : Nat}
    (h : matchUrlLen l = some n) : 1 ≤ n := by
  unfold matchUrlLen at h
  split at h
  · split at h
    · simp only [Option.some.injEq] at h; omega
    · exact absurd h (by simp)
  · split at h
    · split at h
      · simp only [Option.some.injEq] at h; omega
      · exact absurd h (by simp)
    · exact absurd h (by simp)

/-- Embedding of the substitution pass replacing each `url_pattern`
match with the `[URL]` placeholder: leftmost scan; at a match of length
`n` emit the replacement and resume after the match, otherwise emit the
character and advance by one.  The fuel makes the recursion structural;
a match consumes at least one character, so fuel `l.length` never runs
out. -/
def urlSubF : Nat → List Char → List Char
  | 0, l => l
  | fuel + 1, [] => []
  | fuel + 1, c :: rest =>
    match matchUrlLen (c :: rest) with
    | some n =>
      '[' :: 'U' :: 'R' :: 'L' :: ']' ::
        urlSubF fuel ((c :: rest).drop n)
    | none => c :: urlSubF fuel rest

def urlSub (l : List Char) : List Char :=
  urlSubF l.length l

theorem urlSubF_irrel :
    ∀ f1 f2 l, l.length ≤ f1 → l.length ≤ f2 →
      urlSubF f1 l = urlSubF f2 l := by
  intro f1
  induction f1 with
  | zero =>
    intro f2 l h1 _
    have hnil : l = [] := List.length_eq_zero.mp (by omega)
    subst hnil
    cases f2 <;> rfl
  | succ f1 ih =>
    intro f2 l h1 h2
    match l with
    | [] => cases f2 <;> rfl
    | c :: rest =>
      match f2 with
      | f2 + 1 =>
        simp only [List.length_cons] at h1 h2
        cases hm : matchUrlLen (c :: rest) with
        | some n =>
          have hn := matchUrlLen_pos hm
          have hd : ((c :: rest).drop n).length ≤ rest.length := by
            simp only [List.length_drop, List.length_cons]
            omega
          simp only [urlSubF, hm]
          rw [ih f2 _ (by omega) (by omega)]
        | none =>
          simp only [urlSubF, hm]
          rw [ih f2 rest (by omega) (by omega)]

theorem urlSub_nil : urlSub [] = [] := rfl

theorem urlSub_match {c : Char} {rest : List Char} {n : Nat}
    (hm : matchUrlLen (c :: rest) = some n) :
    urlSub (c :: rest) =
      '[' :: 'U' :: 'R' :: 'L' :: ']' :: urlSub ((c :: rest).drop n) := by
  have hn := matchUrlLen_pos hm
  show urlSubF (rest.length + 1) (c :: rest) = _
  simp only [urlSubF, hm]
  unfold urlSub
  rw [urlSubF_irrel rest.length ((c :: rest).drop n).length _
    (by simp only [List.length_drop, List.length_cons]; omega)
    (Nat.le_refl _)]

theorem urlSub_nomatch {c : Char} {rest : List Char}
    (hm : matchUrlLen (c :: rest) = none) :
    urlSub (c :: rest) = c :: urlSub rest := by
  show urlSubF (rest.length + 1) (c :: rest) = _
  simp only [urlSubF, hm]
  rfl

/-- Whether `url_pattern.search` would find a match: some suffix of `l` begins
with a `url_pattern` match. -/
def hasUrl : List Char → Bool
  | [] => false
  | c :: rest => (matchUrlLen (c :: rest)).isSome || hasUrl rest

/-- Case folding used by `re.IGNORECASE` on the ASCII sensitive
words. -/
def ciEq (a b : Char) : Bool :=
  a.toLower = b.toLower

/-- Case-insensitive "the word `w` occurs at the head of the text". -/
def ciStartsWith : List Char → List Char → Bool
  | _, [] => true
  | [], _ :: _ => false
  | c :: cs, w :: ws => ciEq c w && ciStartsWith cs ws

/-- Model of the case-insensitive word substitution pass (re.sub with
re.IGNORECASE on the escaped word) for a
nonempty word `w0 :: ws`: leftmost non-overlapping case-insensitive
replacement (fuel-structural; a replacement consumes at least one
character). -/
def ciSubF (w0 : Char) (ws repl : List Char) : Nat → List Char → List Char
  | 0, l => l
  | fuel + 1, [] => []
  | fuel + 1, c :: rest =>
    if ciStartsWith (c :: rest) (w0 :: ws) then
      repl ++ ciSubF w0 ws repl fuel (rest.drop ws.length)
    else
      c :: ciSubF w0 ws repl fuel rest

def ciSub (w0 : Char) (ws : List Char) (repl : List Char)
    (l : List Char) : List Char :=
  ciSubF w0 ws repl l.length l

theorem ciSubF_irrel (w0 : Char) (ws repl : List Char) :
    ∀ f1 f2 l, l.length ≤ f1 → l.length ≤ f2 →
      ciSubF w0 ws repl f1 l = ciSubF w0 ws repl f2 l := by
  intro f1
  induction f1 with
  | zero =>
    intro f2 l h1 _
    have hnil : l = [] := List.length_eq_zero.mp (by omega)
    subst hnil
    cases f2 <;> rfl
  | succ f1 ih =>
    intro f2 l h1 h2
    match l with
    | [] => cases f2 <;> rfl
    | c :: rest =>
      match f2 with
      | f2 + 1 =>
        simp only [List.length_cons] at h1 h2
        have hd : (rest.drop ws.length).length ≤ rest.length := by
          simp only [List.length_drop]; omega
        by_cases hs : ciStartsWith (c :: rest) (w0 :: ws)
        · simp only [ciSubF, if_pos hs]
          rw [ih f2 _ (by omega) (by omega)]
        · simp only [ciSubF, if_neg hs]
          rw [ih f2 rest (by omega) (by omega)]

theorem ciSub_nil (w0 : Char) (ws repl : List Char) :
    ciSub w0 ws repl [] = [] := rfl

theorem ciSub_match {w0 : Char} {ws : List Char} {c : Char}
    {rest : List Char} (repl : List Char)
    (hs : ciStartsWith (c :: rest) (w0 :: ws) = true) :
    ciSub w0 ws repl (c :: rest) =
      repl ++ ciSub w0 ws repl (rest.drop ws.length) := by
  show ciSubF w0 ws repl (rest.length + 1) (c :: rest) = _
  simp only [ciSubF, if_pos hs]
  unfold ciSub
  rw [ciSubF_irrel w0 ws repl rest.length (rest.drop ws.length).length _
    (by simp only [List.length_drop]; omega) (Nat.le_refl _)]

theorem ciSub_nomatch {w0 : Char} {ws : List Char} {c : Char}
    {rest : List Char} (repl : List Char)
    (hs : ciStartsWith (c :: rest) (w0 :: ws) = false) :
    ciSub w0 ws repl (c :: rest) = c :: ciSub w0 ws repl rest := by
  show ciSubF w0 ws repl (rest.length + 1) (c :: rest) = _
  simp only [ciSubF, hs]
  rfl

/-- One iteration of the `for word in self.sensitive_words` loop. -/
def subWord (repl : List Char) (text : List Char) (w : String) :
    List Char :=
  match w.data with
  | [] => text
  | w0 :: ws => ciSub w0 ws repl text

/-- The `sensitive_words` list of `ReadmeSummarizer.__init__`. -/
def sensitive_words : List String :=
  ["密码", "password", "token", "secret", "key", "私钥", "访问令牌",
   "api_key", "access_token", "private_key", "秘钥"]

/-- The redaction replacement `[敏感信息]`. -/
def redactToken : List Char := ['[', '敏', '感', '信', '息', ']']

/-- Model of `ReadmeSummarizer.filter_content`: URL substitution first, then the
sensitive-word substitutions in list order. -/
def filter_content (content : String) : String :=
  ⟨sensitive_words.foldl (subWord redactToken) (urlSub content.data)⟩

/-- Case-sensitive "the pattern occurs at the head of the text". -/
def litStartsWith : List Char → List Char → Bool
  | _, [] => true
  | [], _ :: _ => false
  | c :: cs, p :: ps => c = p && litStartsWith cs ps

/-- Greedy left-to-right count of non-overlapping (case-sensitive)
occurrences of the pattern `p0 :: ps` (fuel-structural). -/
def countOccF (p0 : Char) (ps : List Char) : Nat → List Char → Nat
  | 0, _ => 0
  | fuel + 1, [] => 0
  | fuel + 1, c :: rest =>
    if litStartsWith (c :: rest) (p0 :: ps) then
      1 + countOccF p0 ps fuel (rest.drop ps.length)
    else countOccF p0 ps fuel rest

def countOcc (p0 : Char) (ps : List Char) (l : List Char) : Nat :=
  countOccF p0 ps l.length l

theorem countOccF_irrel (p0 : Char) (ps : List Char) :
    ∀ f1 f2 l, l.length ≤ f1 → l.length ≤ f2 →
      countOccF p0 ps f1 l = countOccF p0 ps f2 l := by
  intro f1
  induction f1 with
  | zero =>
    intro f2 l h1 _
    have hnil : l = [] := List.length_eq_zero.mp (by omega)
    subst hnil
    cases f2 <;> rfl
  | succ f1 ih =>
    intro f2 l h1 h2
    match l with
    | [] => cases f2 <;> rfl
    | c :: rest =>
      match f2 with
      | f2 + 1 =>
        simp only [List.length_cons] at h1 h2
        have hd : (rest.drop ps.length).length ≤ rest.length := by
          simp only [List.length_drop]; omega
        by_cases hs : litStartsWith (c :: rest) (p0 :: ps)
        · simp only [countOccF, if_pos hs]
          rw [ih f2 _ (by omega) (by omega)]
        · simp only [countOccF, if_neg hs]
          rw [ih f2 rest (by omega) (by omega)]

theorem countOcc_nil (p0 : Char) (ps : List Char) :
    countOcc p0 ps [] = 0 := rfl

theorem countOcc_match {p0 : Char} {ps : List Char} {c : Char}
    {rest : List Char}
    (hs : litStartsWith (c :: rest) (p0 :: ps) = true) :
    countOcc p0 ps (c :: rest) =
      1 + countOcc p0 ps (rest.drop ps.length) := by
  show countOccF p0 ps (rest.length + 1) (c :: rest) = _
  simp only [countOccF, if_pos hs]
  unfold countOcc
  rw [countOccF_irrel p0 ps rest.length (rest.drop ps.length).length _
    (by simp only [List.length_drop]; omega) (Nat.le_refl _)]

theorem countOcc_nomatch {p0 : Char} {ps : List Char} {c : Char}
    {rest : List Char}
    (hs : litStartsWith (c :: rest) (p0 :: ps) = false) :
    countOcc p0 ps (c :: rest) = countOcc p0 ps rest := by
  show countOccF p0 ps (rest.length + 1) (c :: rest) = _
  simp only [countOccF, hs]
  rfl

/-- Greedy left-to-right count of non-overlapping case-insensitive
occurrences of the word `w0 :: ws` (the number of substitutions the
pass for that word performs; fuel-structural). -/
def ciCountF (w0 : Char) (ws : List Char) : Nat → List Char → Nat
  | 0, _ => 0
  | fuel + 1, [] => 0
  | fuel + 1, c :: rest =>
    if ciStartsWith (c :: rest) (w0 :: ws) then
      1 + ciCountF w0 ws fuel (rest.drop ws.length)
    else ciCountF w0 ws fuel rest

def ciCount (w0 : Char) (ws : List Char) (l : List Char) : Nat :=
  ciCountF w0 ws l.length l

theorem ciCountF_irrel (w0 : Char) (ws : List Char) :
    ∀ f1 f2 l, l.length ≤ f1 → l.length ≤ f2 →
      ciCountF w0 ws f1 l = ciCountF w0 ws f2 l := by
  intro f1
  induction f1 with
  | zero =>
    intro f2 l h1 _
    have hnil : l = [] := List.length_eq_zero.mp (by omega)
    subst hnil
    cases f2 <;> rfl
  | succ f1 ih =>
    intro f2 l h1 h2
    match l with
    | [] => cases f2 <;> rfl
    | c :: rest =>
      match f2 with
      | f2 + 1 =>
        simp only [List.length_cons] at h1 h2
        have hd : (rest.drop ws.length).length ≤ rest.length := by
          simp only [List.length_drop]; omega
        by_cases hs : ciStartsWith (c :: rest) (w0 :: ws)
        · simp only [ciCountF, if_pos hs]
          rw [ih f2 _ (by omega) (by omega)]
        · simp only [ciCountF, if_neg hs]
          rw [ih f2 rest (by omega) (by omega)]

theorem ciCount_nil (w0 : Char) (ws : List Char) :
    ciCount w0 ws [] = 0 := rfl

theorem ciCount_match {w0 : Char} {ws : List Char} {c : Char}
    {rest : List Char}
    (hs : ciStartsWith (c :: rest) (w0 :: ws) = true) :
    ciCount w0 ws (c :: rest) =
      1 + ciCount w0 ws (rest.drop ws.length) := by
  show ciCountF w0 ws (rest.length + 1) (c :: rest) = _
  simp only [ciCountF, if_pos hs]
  unfold ciCount
  rw [ciCountF_irrel w0 ws rest.length (rest.drop ws.length).length _
    (by simp only [List.length_drop]; omega) (Nat.le_refl _)]

theorem ciCount_nomatch {w0 : Char} {ws : List Char} {c : Char}
    {rest : List Char}
    (hs : ciStartsWith (c :: rest) (w0 :: ws) = false) :
    ciCount w0 ws (c :: rest) = ciCount w0 ws rest := by
  show ciCountF w0 ws (rest.length + 1) (c :: rest) = _
  simp only [ciCountF, hs]
  rfl

/-! ## Collector: `get_organization_repos`

The `while True` pagination loop: request page `page`; a raised
`requests.exceptions.RequestException` is caught and breaks the loop
(keeping what was collected); an empty page breaks the loop; otherwise
the page's records are appended and `page` is incremented.  We model a
page request as `Except Unit (List Repo)` (`.error` = the request
raised / `raise_for_status` fired) and make the unbounded loop
structural with a fuel argument; every theorem holds for all
sufficiently large fuel, which captures the unbounded loop on inputs
where it terminates.  The second component records which pages were
requested. -/

structure Repo where
  name : String
  payload : String
  deriving Repr, DecidableEq

def getReposAux (api : Nat → Except Unit (List Repo)) :
    Nat → Nat → List Repo × List Nat
  | 0, _ => ([], [])
  | fuel + 1, page =>
    match api page with
    | .error _ => ([], [page])
    | .ok [] => ([], [page])
    | .ok rs =>
      let p := getReposAux api fuel (page + 1)
      (rs ++ p.1, page :: p.2)

/-- Model of `get_organization_repos` (records returned); pagination
starts at
page 1. -/
def get_organization_repos (api : Nat → Except Unit (List Repo))
    (fuel : Nat) : List Repo :=
  (getReposAux api fuel 1).1

/-- The pages the loop actually requested. -/
def requestedPages (api : Nat → Except Unit (List Repo))
    (fuel : Nat) : List Nat :=
  (getReposAux api fuel 1).2

/-! ## Vector index builder: `create_vector_db`

`create_vector_db` loads the documents, raises `ValueError` when the
loaded list is empty (`if not documents`), and otherwise calls
`Chroma.from_documents`, which embeds every document.  We parameterize
by the loaded document list and by the embedding function (abstract
vector type `V`); the success value records exactly which documents
were written and the embedding computed for each. -/

structure Document where
  page_content : String
  source : String
  deriving Repr, DecidableEq

structure ChromaDB (V : Type) where
  entries : List (Document × V)
  persist_directory : String
  collection_name : String

/-- Model of `Chroma.from_documents`: one embedding call per document. -/
def Chroma.from_documents {V : Type} (documents : List Document)
    (embedding : String → V) (persist : String) (name : String) :
    ChromaDB V :=
  { entries := documents.map (fun d => (d, embedding d.page_content))
    persist_directory := persist
    collection_name := name }

/-- Model of `KnowledgeBaseLoader.create_vector_db`, parameterized by
the result
of `load_documents`. -/
def create_vector_db {V : Type} (documents : List Document)
    (embedding_function : String → V) (persist : String)
    (collection_name : String) : Except String (ChromaDB V) :=
  if documents = [] then
    .error "文档：[]"
  else
    .ok (Chroma.from_documents documents embedding_function persist
      collection_name)

/-! ## Collector: `collect_all_readmes` and `save_collection_summary`

Per-repository processing: the name-key lookup on the repo dict is read *outside* the `try`
block (a record without the key raises `KeyError`, which propagates out
of `collect_all_readmes`).  Inside the `try`: `get_repo_readme` (which
never raises — it catches internally) yields an optional content; on
`some`, `save_readme_to_file` runs and may raise (caught by the outer
`except`, counted as a failure); on success the path is recorded in the
`file_paths` dict and the success counter incremented.  If the repo
list is empty the method returns `{}` before writing any summary;
otherwise, after the loop, `save_collection_summary` writes exactly one
summary. -/

structure RepoItem where
  /-- Presence of the name key on the record; `none` models a record
  without it, on which the lookup raises `KeyError`. -/
  nameField : Option String
  /-- result of `get_repo_readme` for this repository. -/
  fetch : Option String
  /-- outcome of `save_readme_to_file` (`.ok` carries the path). -/
  save : Except Unit String
  deriving Repr

/-- Python-dict assignment `d[k] = v` on an association list. -/
def upsert : List (String × String) → String → String →
    List (String × String)
  | [], k, v => [(k, v)]
  | (a, b) :: t, k, v =>
    if a = k then (a, v) :: t else (a, b) :: upsert t k v

structure CollectState where
  success_count : Nat
  failed_count : Nat
  file_paths : List (String × String)
  deriving Repr, DecidableEq

/-- Loop body of `collect_all_readmes` for one repository record.
`.error` = the name-key lookup raised `KeyError` (outside the
`try`); everything inside the `try` is caught and mapped to a failure
count. -/
def processRepo (st : CollectState) (r : RepoItem) :
    Except Unit CollectState :=
  match r.nameField with
  | none => .error ()
  | some name =>
    match r.fetch with
    | none =>
      .ok { st with failed_count := st.failed_count + 1 }
    | some _ =>
      match r.save with
      | .error _ =>
        .ok { st with failed_count := st.failed_count + 1 }
      | .ok path =>
        .ok { st with
                success_count := st.success_count + 1
                file_paths := upsert st.file_paths name path }

/-- The `for repo in repos` loop (short-circuits on the uncaught
`KeyError`). -/
def collectLoop : CollectState → List RepoItem →
    Except Unit CollectState
  | st, [] => .ok st
  | st, r :: rest =>
    match processRepo st r with
    | .error e => .error e
    | .ok st2 => collectLoop st2 rest

structure CollectionSummary where
  total_repos : Nat
  successful_collections : Nat
  failed_collections : Nat
  collected_repos : List String
  file_paths : List (String × String)
  deriving Repr, DecidableEq

/-- Model of `save_collection_summary`. -/
def save_collection_summary (repos : List RepoItem)
    (file_paths : List (String × String)) : CollectionSummary :=
  { total_repos := repos.length
    successful_collections := file_paths.length
    failed_collections := repos.length - file_paths.length
    collected_repos := file_paths.map Prod.fst
    file_paths := file_paths }

/-- Model of `collect_all_readmes`, parameterized by the fetched
repository
list; returns the `file_paths` dict and the summary written (if any).
`.error` = an uncaught `KeyError` escaped the loop. -/
def collect_all_readmes (repos : List RepoItem) :
    Except Unit (List (String × String) × Option CollectionSummary) :=
  if repos.isEmpty then
    .ok ([], none)
  else
    match collectLoop ⟨0, 0, []⟩ repos with
    | .error e => .error e
    | .ok st =>
      .ok (st.file_paths, some (save_collection_summary repos st.file_paths))

/-! ## Summarizer: `setup_llm`, `generate_summary`, `process_all_readmes`

`setup_llm` configures a client for `"zhipuai"` or `"openai"` (raising
`ValueError` when no API key is available) and does nothing at all for
any other `llm_type`.  `generate_summary` dispatches on `llm_type` and
raises `ValueError` for an unsupported type; the two backends catch any
model-call exception and return a summary string embedding the error
message.  We model the model call itself as `Except String String`
(`.ok` = the content of the first choice, before `.strip()`; `.error`
= the raised exception's message). -/

inductive LlmClient where
  | zhipu (api_key : String)
  | openai (api_key : String) (base_url : String)
  deriving Repr, DecidableEq

/-- Model of `ReadmeSummarizer.setup_llm`: `.error` = raised
`ValueError`;
`.ok none` = no branch taken, no credential check, no client. -/
def setup_llm (llm_type : String) (api_key : Option String)
    (env : String → Option String) : Except String (Option LlmClient) :=
  if llm_type = "zhipuai" then
    match api_key.orElse (fun _ => env "ZHIPUAI_API_KEY") with
    | none => .error "请在.env文件中设置ZHIPUAI_API_KEY或传入api_key参数"
    | some k => .ok (some (.zhipu k))
  else if llm_type = "openai" then
    match api_key.orElse (fun _ => env "OPENAI_API_KEY") with
    | none => .error "请在.env文件中设置OPENAI_API_KEY或传入api_key参数"
    | some k => .ok (some (.openai k "https://api.chatanywhere.tech/v1"))
  else
    .ok none

structure Summarizer where
  llm_type : String
  client : Option LlmClient
  deriving Repr, DecidableEq

/-- Model of `ReadmeSummarizer.__init__` (the parts that can raise:
only
`setup_llm`). -/
def mkReadmeSummarizer (llm_type : String) (api_key : Option String)
    (env : String → Option String) : Except String Summarizer :=
  match setup_llm llm_type api_key env with
  | .error e => .error e
  | .ok c => .ok { llm_type := llm_type, client := c }

/-- Model of `generate_summary_zhipuai`: the `try` block strips and
returns the
model output; the `except` returns a string embedding the error. -/
def generate_summary_zhipuai (call : Except String String) : String :=
  match call with
  | .ok content => content.trim
  | .error e => "摘要生成失败: " ++ e

/-- Model of `generate_summary_openai`: same shape as the zhipuai
backend. -/
def generate_summary_openai (call : Except String String) : String :=
  match call with
  | .ok content => content.trim
  | .error e => "摘要生成失败: " ++ e

/-- Model of `generate_summary`: dispatch on `llm_type`; unsupported
types raise
`ValueError` (modelled as `.error`). -/
def generate_summary (llm_type : String) (call : Except String String) :
    Except String String :=
  if llm_type = "zhipuai" then .ok (generate_summary_zhipuai call)
  else if llm_type = "openai" then .ok (generate_summary_openai call)
  else .error ("不支持的LLM类型: " ++ llm_type)

structure ReadmeItem where
  repo_name : String
  content : String
  metadata : List (String × String)
  /-- outcome of the chat-completion call for this document. -/
  llm : Except String String
  /-- whether the `save_summary` file write succeeds (its own failure
  is caught inside `save_summary`). -/
  save_ok : Bool
  deriving Repr

structure SummaryRecord where
  repo_name : String
  summary : String
  metadata : List (String × String)
  llm_type : String
  deriving Repr, DecidableEq

/-- Loop body of `process_all_readmes` for one README document: filter,
summarize, save; any raise inside the per-item `try` (here: only the
`ValueError` of `generate_summary`) is caught and the loop continues
without incrementing the success counter.  Returns the records written
and the success increment. -/
def processReadme (llm_type : String) (item : ReadmeItem) :
    List SummaryRecord × Nat :=
  match generate_summary llm_type item.llm with
  | .error _ => ([], 0)
  | .ok summary =>
    (if item.save_ok then
      [{ repo_name := item.repo_name
         summary := summary
         metadata := item.metadata
         llm_type := llm_type }]
     else [], 1)

/-- Model of `process_all_readmes`, parameterized by the loaded README
documents: all records written and the final success count. -/
def process_all_readmes (llm_type : String) (items : List ReadmeItem) :
    List SummaryRecord × Nat :=
  items.foldl
    (fun acc item =>
      let r := processReadme llm_type item
      (acc.1 ++ r.1, acc.2 + r.2))
    ([], 0)

/-! ## Vector index builder: `KnowledgeBaseLoader.__init__`

The constructor stores the chunking configuration unchanged; nothing in
`create_db.py` validates `chunk_overlap` against `chunk_size` (the
third-party splitter constructor rejects only `chunk_overlap >
chunk_size`). -/

structure KnowledgeBaseLoader where
  docs_path : String
  persist_path : String
  chunk_size : Nat
  chunk_overlap : Nat
  separators : List String
  deriving Repr, DecidableEq

/-- Model of `KnowledgeBaseLoader.__init__`. -/
def mkKnowledgeBaseLoader (docs_path : String) (persist_path : String)
    (chunk_size : Nat := 500) (chunk_overlap : Nat := 150) :
    KnowledgeBaseLoader :=
  { docs_path := docs_path
    persist_path := persist_path
    chunk_size := chunk_size
    chunk_overlap := chunk_overlap
    separators := ["\n\n", "\n", " ", ""] }

/-- The loader constructed by `main()` in `create_db.py`. -/
def mainLoader : KnowledgeBaseLoader :=
  mkKnowledgeBaseLoader "knowledge_db/readme_summary" "vector_db/chroma"
    500 150

/-! ## Vector index builder: the chunking operation (modelled from the spec)

Modelled from the spec: the splitter itself is the third-party
`RecursiveCharacterTextSplitter`; only its configuration
(`chunk_size`, `chunk_overlap`, `separators`) lives in
`create_db.py`.  Spec §4.3: `split` "applies a recursive-boundary text
splitter with a priority-ordered list of separator strings (paragraph
break, line break, space, empty string — i.e., fall back to
character-level splitting if no higher-priority separator fits) to
produce chunks of at most `chunk_size` characters with `chunk_overlap`
characters of context repeated between consecutive chunks from the
same source unit."

We model a chunk by its source span `(start, len)`: the chunk text is
`(t.drop start).take len`.  The next chunk starts `min chunk_overlap
(cut - 1)` characters before the previous chunk's end, so consecutive
chunks literally share that boundary text. -/

/-- Does `l` end with `sep`? -/
def endsWith (l sep : List Char) : Bool :=
  decide (sep.length ≤ l.length) &&
    decide (l.drop (l.length - sep.length) = sep)

/-- The largest cut position `c` with `1 ≤ c ≤ limit` such that the
span `t.take c` ends with the separator, if any. -/
def sepCut (sep : List Char) (limit : Nat) (t : List Char) :
    Option Nat :=
  (List.range' 1 limit).reverse.find? (fun c => endsWith (t.take c) sep)

/-- Cut position for an over-long text: the first separator in
priority order that fits inside the window wins; the empty separator
(and an exhausted list) means character-level splitting at
`chunk_size`. -/
def cutPoint (size : Nat) : List (List Char) → List Char → Nat
  | [], _ => max 1 size
  | sep :: rest, t =>
    if sep = [] then max 1 size
    else
      match sepCut sep size t with
      | some c => c
      | none => cutPoint size rest t

theorem sepCut_bounds {sep : List Char} {limit : Nat} {t : List Char}
    {c : Nat} (h : sepCut sep limit t = some c) :
    1 ≤ c ∧ c ≤ limit := by
  have hmem := List.mem_of_find?_eq_some h
  have hmem2 := (List.mem_reverse).mp hmem
  have := List.mem_range'_1.mp hmem2
  omega

theorem cutPoint_ge_one (size : Nat) (seps : List (List Char))
    (t : List Char) : 1 ≤ cutPoint size seps t := by
  induction seps with
  | nil => simp [cutPoint]
  | cons s rest ih =>
    simp only [cutPoint]
    split
    · simp
    · cases hs : sepCut s size t with
      | some c => exact (sepCut_bounds hs).1
      | none => exact ih

theorem cutPoint_le (size : Nat) (seps : List (List Char))
    (t : List Char) : cutPoint size seps t ≤ max 1 size := by
  induction seps with
  | nil => simp [cutPoint]
  | cons s rest ih =>
    simp only [cutPoint]
    split
    · simp
    · cases hs : sepCut s size t with
      | some c =>
        simp only [hs]
        have := (sepCut_bounds hs).2
        omega
      | none => simp only [hs]; exact ih

/-- The chunk spans `(start, len)` produced for the text `t` from
position `pos` on.  The fuel argument makes the recursion structural;
since every step advances the position by at least one, fuel
`t.length` never runs out. -/
def chunkSpans (size overlap : Nat) (seps : List (List Char))
    (t : List Char) : Nat → Nat → List (Nat × Nat)
  | 0, _ => []
  | fuel + 1, pos =>
    if t.length ≤ pos then []
    else if t.length - pos ≤ size then [(pos, t.length - pos)]
    else
      (pos, cutPoint size seps (t.drop pos)) ::
        chunkSpans size overlap seps t fuel
          (pos + (cutPoint size seps (t.drop pos) -
            min overlap (cutPoint size seps (t.drop pos) - 1)))

/-- Model of `split` for a configured loader: chunk spans of one
source text. -/
def split_spans (L : KnowledgeBaseLoader) (t : List Char) :
    List (Nat × Nat) :=
  chunkSpans L.chunk_size L.chunk_overlap (L.separators.map String.data)
    t t.length 0

/-- The text of a chunk span. -/
def spanText (t : List Char) (s : Nat × Nat) : List Char :=
  (t.drop s.1).take s.2

/-! ## Theorems -/

theorem get_repo_readme_go_eq (b64 : String → Option String)
    (api : String → Option ContentResponse) (l : List String) :
    get_repo_readme.go b64 api l =
      List.findSome? (fun f => tryCandidate b64 (api f)) l := by
  induction l with
  | nil => rfl
  | cons a as ih =>
    simp only [get_repo_readme.go, List.findSome?]
    cases tryCandidate b64 (api a) with
    | none => simpa using ih
    | some c => rfl

/-- C1: `get_repo_readme` tries the candidate filenames in the fixed
order `README.md`, `readme.md`, `README.txt`, `readme.txt`, `README`
and returns the base64-decoded content of the first candidate that
yields a 200 response with base64 encoding (non-200 responses, other
encodings, request exceptions and decode failures move on to the next
candidate); in particular when `README.md` succeeds its content is
returned regardless of `readme.md`; when no candidate succeeds the
result is `none` rather than an exception. -/
theorem C1_get_repo_readme_candidate_order :
    readme_files =
      ["README.md", "readme.md", "README.txt", "readme.txt", "README"]
    ∧ (∀ b64 api, get_repo_readme b64 api =
        List.findSome? (fun f => tryCandidate b64 (api f)) readme_files)
    ∧ (∀ b64 api r s, api "README.md" = some r → r.status = 200 →
        r.encoding = some "base64" → b64 r.content = some s →
        get_repo_readme b64 api = some s)
    ∧ (∀ b64 api, (∀ f ∈ readme_files, tryCandidate b64 (api f) = none) →
        get_repo_readme b64 api = none) := by
  refine ⟨rfl, fun b64 api => get_repo_readme_go_eq b64 api readme_files,
    ?_, ?_⟩
  · intro b64 api r s hr h200 henc hdec
    unfold get_repo_readme readme_files
    simp only [get_repo_readme.go, tryCandidate, hr, h200, henc,
      if_pos rfl, hdec]
    simp
  · intro b64 api hall
    unfold get_repo_readme
    rw [get_repo_readme_go_eq]
    rw [List.findSome?_eq_none_iff]
    intro f hf
    simp [hall f hf]

def c1Api : String → Option ContentResponse := fun f =>
  if f = "README.md" then some ⟨200, some "base64", "TOP"⟩
  else if f = "readme.md" then some ⟨200, some "base64", "OTHER"⟩
  else none

/-- C1 witness: with both `README.md` and `readme.md` present and
decodable, the `README.md` content is returned. -/
theorem C1_get_repo_readme_candidate_order_witness :
    get_repo_readme (fun s => some s) c1Api = some "TOP" :=
  C1_get_repo_readme_candidate_order.2.2.1 (fun s => some s) c1Api
    ⟨200, some "base64", "TOP"⟩ "TOP" (by decide) rfl rfl rfl

theorem getReposAux_run (api : Nat → Except Unit (List Repo))
    (L : Nat → List Repo) :
    ∀ N start fuel,
      (∀ i, i < N → api (start + i) = .ok (L (start + i)) ∧
        L (start + i) ≠ []) →
      (api (start + N) = .ok [] ∨ api (start + N) = .error ()) →
      N < fuel →
      getReposAux api fuel start =
        ((List.range N).flatMap (fun i => L (start + i)),
          List.range' start (N + 1)) := by
  intro N
  induction N with
  | zero =>
    intro start fuel _ hterm hfuel
    match fuel, hfuel with
    | f + 1, _ =>
      simp only [Nat.add_zero] at hterm
      rcases hterm with h | h <;>
        simp [getReposAux, h, List.range']
  | succ N ih =>
    intro start fuel hfull hterm hfuel
    match fuel, hfuel with
    | f + 1, hfuel =>
      have h0 := hfull 0 (Nat.succ_pos N)
      simp only [Nat.add_zero] at h0
      have hshift : ∀ i, i < N → api (start + 1 + i) =
          .ok (L (start + 1 + i)) ∧ L (start + 1 + i) ≠ [] := by
        intro i hi
        have := hfull (i + 1) (by omega)
        have harg : start + (i + 1) = start + 1 + i := by omega
        rwa [harg] at this
      have hterm2 : api (start + 1 + N) = .ok [] ∨
          api (start + 1 + N) = .error () := by
        have harg : start + 1 + N = start + (N + 1) := by omega
        rwa [harg]
      have hrec := ih (start + 1) f hshift hterm2 (by omega)
      match hL : L start, h0 with
      | r :: rs, ⟨hok, _⟩ =>
        simp only [getReposAux, hok, hL, hrec]
        simp only [Prod.mk.injEq]
        refine ⟨?_, ?_⟩
        · rw [List.range_succ_eq_map, List.flatMap_cons,
            List.flatMap_map]
          simp only [Nat.add_zero, Function.comp]
          congr 1
          · exact hL.symm
          · apply List.flatMap_congr
            intro i _
            have harg : start + Nat.succ i = start + 1 + i := by omega
            rw [harg]
        · simp [List.range']

/-- C3: starting at page 1, `get_organization_repos` accumulates the
records of the pages in order while they are nonempty and a request for
the page after the last nonempty page returns the empty page, the
result is exactly the concatenation of pages `1..N` and the loop
requested exactly pages `1..N+1` (nothing after the empty page); and if
the request for page `k` raises while all earlier pages were nonempty,
the loop stops and returns the records of pages `1..k-1` collected so
far rather than raising.  Stated for every sufficiently large fuel,
which models the unbounded `while True` loop. -/
theorem C3_get_organization_repos_pagination :
    (∀ (api : Nat → Except Unit (List Repo)) (L : Nat → List Repo)
      (N fuel : Nat),
      (∀ p, 1 ≤ p → p ≤ N → api p = .ok (L p) ∧ L p ≠ []) →
      api (N + 1) = .ok [] → N < fuel →
      get_organization_repos api fuel =
        (List.range N).flatMap (fun i => L (1 + i)) ∧
      requestedPages api fuel = List.range' 1 (N + 1))
    ∧ (∀ (api : Nat → Except Unit (List Repo)) (L : Nat → List Repo)
      (N fuel : Nat),
      (∀ p, 1 ≤ p → p ≤ N → api p = .ok (L p) ∧ L p ≠ []) →
      api (N + 1) = .error () → N < fuel →
      get_organization_repos api fuel =
        (List.range N).flatMap (fun i => L (1 + i))) := by
  constructor
  · intro api L N fuel hfull hempty hfuel
    have hterm : api (1 + N) = .ok [] := by
      rw [Nat.add_comm]; exact hempty
    have h := getReposAux_run api L N 1 fuel
      (fun i hi => hfull (1 + i) (by omega) (by omega))
      (Or.inl hterm) hfuel
    exact ⟨congrArg Prod.fst h, congrArg Prod.snd h⟩
  · intro api L N fuel hfull herr hfuel
    have hterm : api (1 + N) = .error () := by
      rw [Nat.add_comm]; exact herr
    have h := getReposAux_run api L N 1 fuel
      (fun i hi => hfull (1 + i) (by omega) (by omega))
      (Or.inr hterm) hfuel
    exact congrArg Prod.fst h

def c3Api : Nat → Except Unit (List Repo) := fun p =>
  if p = 1 then .ok [⟨"r1", "a"⟩, ⟨"r2", "b"⟩]
  else if p = 2 then .ok [⟨"r3", "c"⟩]
  else .ok []

def c3Pages : Nat → List Repo := fun p =>
  if p = 1 then [⟨"r1", "a"⟩, ⟨"r2", "b"⟩]
  else if p = 2 then [⟨"r3", "c"⟩]
  else []

/-- C3 witness: two nonempty pages then the empty page; the collected
records are pages 1 and 2 in order and pages 1, 2, 3 were requested. -/
theorem C3_get_organization_repos_pagination_witness :
    get_organization_repos c3Api 10 =
      [⟨"r1", "a"⟩, ⟨"r2", "b"⟩, ⟨"r3", "c"⟩] ∧
    requestedPages c3Api 10 = [1, 2, 3] := by
  have h := C3_get_organization_repos_pagination.1 c3Api c3Pages 2 10
    (by intro p h1 h2; interval_cases p <;> exact ⟨rfl, by decide⟩)
    rfl (by decide)
  exact ⟨h.1.trans (by decide), h.2.trans (by decide)⟩

/-- C4: `create_vector_db` invoked on an empty loaded-document set
raises `ValueError` before any embedding call (the error outcome is
the same whatever the embedding function is, i.e. the embedding
function is never invoked); on a nonempty document set no error is
raised and the persisted collection holds exactly the loaded
documents, each with the embedding computed for its content. -/
theorem C4_create_vector_db_empty_raises :
    (∀ (V : Type) (emb : String → V) (persist name : String),
      create_vector_db [] emb persist name = .error "文档：[]")
    ∧ (∀ (V : Type) (documents : List Document) (emb : String → V)
        (persist name : String), documents ≠ [] →
        create_vector_db documents emb persist name =
          .ok { entries :=
                  documents.map (fun d => (d, emb d.page_content))
                persist_directory := persist
                collection_name := name }
        ∧ ∀ db, create_vector_db documents emb persist name = .ok db →
            db.entries.map Prod.fst = documents) := by
  constructor
  · intro V emb persist name
    simp [create_vector_db]
  · intro V documents emb persist name hne
    constructor
    · simp [create_vector_db, hne, Chroma.from_documents]
    · intro db hdb
      simp only [create_vector_db, if_neg hne] at hdb
      cases hdb
      simp only [Chroma.from_documents, List.map_map]
      have hcomp : (Prod.fst ∘ fun d : Document =>
          (d, emb d.page_content)) = id := rfl
      rw [hcomp, List.map_id]

/-- C4 witness: a one-document set is indexed without error, the
collection holding exactly that document and its embedding. -/
theorem C4_create_vector_db_empty_raises_witness :
    create_vector_db [⟨"hello", "a.md"⟩] (fun s => s.length) "p"
      "knowledge_db" =
      .ok { entries := [(⟨"hello", "a.md"⟩, 5)]
            persist_directory := "p"
            collection_name := "knowledge_db" } := by
  have h := (C4_create_vector_db_empty_raises.2 Nat [⟨"hello", "a.md"⟩]
    (fun s => s.length) "p" "knowledge_db" (by simp)).1
  exact h

/-- C10: for every `llm_type` other than `"zhipuai"` and `"openai"`,
constructing the summarizer succeeds (the `setup_llm` `if`/`elif`
chain has no `else`: no credential check, no client configured,
whatever the environment), and every `generate_summary` call on such
an instance raises a `ValueError` naming the unsupported type. -/
theorem C10_unsupported_llm_type :
    ∀ t : String, t ≠ "zhipuai" → t ≠ "openai" →
      (∀ key env, setup_llm t key env = .ok none)
      ∧ (∀ key env,
          mkReadmeSummarizer t key env = .ok ⟨t, none⟩)
      ∧ (∀ call, generate_summary t call =
          .error ("不支持的LLM类型: " ++ t)) := by
  intro t h1 h2
  refine ⟨?_, ?_, ?_⟩
  · intro key env
    simp [setup_llm, h1, h2]
  · intro key env
    simp [mkReadmeSummarizer, setup_llm, h1, h2]
  · intro call
    simp [generate_summary, h1, h2]

/-- C10 witness: `llm_type = "deepseek"` constructs fine with an empty
environment and no key, and summarizing raises the naming error. -/
theorem C10_unsupported_llm_type_witness :
    mkReadmeSummarizer "deepseek" none (fun _ => none) =
      .ok ⟨"deepseek", none⟩
    ∧ generate_summary "deepseek" (.ok "text") =
      .error "不支持的LLM类型: deepseek" := by
  have h := C10_unsupported_llm_type "deepseek" (by decide) (by decide)
  exact ⟨h.2.1 none (fun _ => none),
    (h.2.2 (.ok "text")).trans (congrArg Except.error (by decide))⟩

theorem process_all_readmes_run (llm_type : String) :
    ∀ (items : List ReadmeItem) (acc : List SummaryRecord × Nat),
      items.foldl
        (fun acc item =>
          let r := processReadme llm_type item
          (acc.1 ++ r.1, acc.2 + r.2)) acc =
      (acc.1 ++ items.flatMap (fun i => (processReadme llm_type i).1),
        acc.2 + (items.map (fun i => (processReadme llm_type i).2)).sum) := by
  intro items
  induction items with
  | nil => intro acc; simp
  | cons i rest ih =>
    intro acc
    simp only [List.foldl_cons, ih, List.flatMap_cons, List.map_cons,
      List.sum_cons]
    simp [List.append_assoc, Nat.add_assoc]

/-- C7: a failing model call never propagates out of the summary
backends: both `generate_summary_openai` and `generate_summary_zhipuai`
return a summary string embedding the error message, and
`process_all_readmes` still writes the summary record (with that
error-embedding summary) for such a document, whatever its position in
the batch. -/
theorem C7_summary_error_embedded :
    (∀ e, generate_summary_openai (.error e) = "摘要生成失败: " ++ e)
    ∧ (∀ e, generate_summary_zhipuai (.error e) = "摘要生成失败: " ++ e)
    ∧ (∀ (pre post : List ReadmeItem) (item : ReadmeItem) (e : String),
        item.llm = .error e → item.save_ok = true →
        ({ repo_name := item.repo_name
           summary := "摘要生成失败: " ++ e
           metadata := item.metadata
           llm_type := "openai" } : SummaryRecord) ∈
          (process_all_readmes "openai" (pre ++ item :: post)).1) := by
  refine ⟨fun e => rfl, fun e => rfl, ?_⟩
  intro pre post item e hllm hsave
  unfold process_all_readmes
  rw [process_all_readmes_run]
  simp only [List.nil_append, List.flatMap_append, List.flatMap_cons]
  have hitem : (processReadme "openai" item).1 =
      [{ repo_name := item.repo_name
         summary := "摘要生成失败: " ++ e
         metadata := item.metadata
         llm_type := "openai" }] := by
    simp [processReadme, generate_summary, hllm, hsave,
      generate_summary_openai]
  rw [hitem]
  simp

/-- C7 witness: a single-document batch whose model call fails with
message `boom` still gets its record written, the summary embedding
`boom`. -/
theorem C7_summary_error_embedded_witness :
    ({ repo_name := "r", summary := "摘要生成失败: " ++ "boom"
       metadata := [], llm_type := "openai" } : SummaryRecord) ∈
      (process_all_readmes "openai"
        [{ repo_name := "r", content := "c", metadata := []
           llm := .error "boom", save_ok := true }]).1 :=
  C7_summary_error_embedded.2.2 [] []
    { repo_name := "r", content := "c", metadata := []
      llm := .error "boom", save_ok := true } "boom" rfl rfl

/-- A repository record whose processing succeeds: a README was found
and the file write did not raise. -/
def repoOk (r : RepoItem) : Bool :=
  r.fetch.isSome &&
    (match r.save with | .ok _ => true | .error _ => false)

theorem upsert_keys (l : List (String × String)) (k v n : String) :
    n ∈ (upsert l k v).map Prod.fst ↔
      n ∈ l.map Prod.fst ∨ n = k := by
  induction l with
  | nil => simp [upsert]
  | cons p t ih =>
    by_cases h : p.1 = k
    · cases p
      simp_all [upsert]
    · cases p
      simp only [upsert, if_neg h, List.map_cons, List.mem_cons, ih]
      tauto

theorem upsert_length_le (l : List (String × String)) (k v : String) :
    (upsert l k v).length ≤ l.length + 1 := by
  induction l with
  | nil => simp [upsert]
  | cons p t ih =>
    by_cases h : p.1 = k
    · cases p; simp_all [upsert]
    · cases p
      simp only [upsert, if_neg h, List.length_cons]
      omega

theorem collectLoop_run :
    ∀ (items : List RepoItem) (st : CollectState),
      (∀ i ∈ items, i.nameField.isSome) →
      ∃ st', collectLoop st items = .ok st'
        ∧ st'.success_count = st.success_count + items.countP repoOk
        ∧ st'.failed_count =
            st.failed_count + items.countP (fun i => !repoOk i)
        ∧ st'.file_paths.length ≤
            st.file_paths.length + items.countP repoOk
        ∧ (∀ n, n ∈ st'.file_paths.map Prod.fst ↔
            n ∈ st.file_paths.map Prod.fst ∨
            ∃ i ∈ items, repoOk i = true ∧ i.nameField = some n) := by
  intro items
  induction items with
  | nil =>
    intro st _
    exact ⟨st, rfl, by simp, by simp, by simp, by simp⟩
  | cons item rest ih =>
    intro st hnames
    have hitem := hnames item (List.mem_cons_self _ _)
    have hrest : ∀ i ∈ rest, i.nameField.isSome :=
      fun i hi => hnames i (List.mem_cons_of_mem _ hi)
    match hname : item.nameField with
    | none => rw [hname] at hitem; exact absurd hitem (by simp)
    | some name =>
      match hfetch : item.fetch with
      | none =>
        have hok : repoOk item = false := by
          simp [repoOk, hfetch]
        obtain ⟨st', hrun, h1, h2, h3, h4⟩ :=
          ih { st with failed_count := st.failed_count + 1 } hrest
        refine ⟨st', ?_, ?_, ?_, ?_, ?_⟩
        · simp only [collectLoop, processRepo, hname, hfetch]
          exact hrun
        · simpa [List.countP_cons, hok] using h1
        · simp only [List.countP_cons, hok]
          simp only [h2]
          simp
          omega
        · simpa [List.countP_cons, hok] using h3
        · intro n
          rw [h4 n]
          constructor
          · rintro (h | ⟨i, hi, hoki, hni⟩)
            · exact Or.inl h
            · exact Or.inr ⟨i, List.mem_cons_of_mem _ hi, hoki, hni⟩
          · rintro (h | ⟨i, hi, hoki, hni⟩)
            · exact Or.inl h
            · rcases List.mem_cons.mp hi with rfl | hi2
              · rw [hoki] at hok; cases hok
              · exact Or.inr ⟨i, hi2, hoki, hni⟩
      | some content =>
        match hsave : item.save with
        | .error _ =>
          have hok : repoOk item = false := by
            simp [repoOk, hsave]
          obtain ⟨st', hrun, h1, h2, h3, h4⟩ :=
            ih { st with failed_count := st.failed_count + 1 } hrest
          refine ⟨st', ?_, ?_, ?_, ?_, ?_⟩
          · simp only [collectLoop, processRepo, hname, hfetch, hsave]
            exact hrun
          · simpa [List.countP_cons, hok] using h1
          · simp only [List.countP_cons, hok]
            simp only [h2]
            simp
            omega
          · simpa [List.countP_cons, hok] using h3
          · intro n
            rw [h4 n]
            constructor
            · rintro (h | ⟨i, hi, hoki, hni⟩)
              · exact Or.inl h
              · exact Or.inr ⟨i, List.mem_cons_of_mem _ hi, hoki, hni⟩
            · rintro (h | ⟨i, hi, hoki, hni⟩)
              · exact Or.inl h
              · rcases List.mem_cons.mp hi with rfl | hi2
                · rw [hoki] at hok; cases hok
                · exact Or.inr ⟨i, hi2, hoki, hni⟩
        | .ok path =>
          have hok : repoOk item = true := by
            simp [repoOk, hfetch, hsave]
          obtain ⟨st', hrun, h1, h2, h3, h4⟩ :=
            ih { st with
                  success_count := st.success_count + 1
                  file_paths := upsert st.file_paths name path } hrest
          refine ⟨st', ?_, ?_, ?_, ?_, ?_⟩
          · simp only [collectLoop, processRepo, hname, hfetch, hsave]
            exact hrun
          · rw [List.countP_cons_of_pos _ _ hok, h1]
            dsimp only
            omega
          · simpa [List.countP_cons, hok] using h2
          · rw [List.countP_cons_of_pos _ _ hok]
            have hu := upsert_length_le st.file_paths name path
            have h3' := h3
            dsimp only at h3'
            omega
          · intro n
            rw [h4 n, upsert_keys]
            constructor
            · rintro ((h | rfl) | ⟨i, hi, hoki, hni⟩)
              · exact Or.inl h
              · exact Or.inr ⟨item, List.mem_cons_self _ _, hok, hname⟩
              · exact Or.inr ⟨i, List.mem_cons_of_mem _ hi, hoki, hni⟩
            · rintro (h | ⟨i, hi, hoki, hni⟩)
              · exact Or.inl (Or.inl h)
              · rcases List.mem_cons.mp hi with rfl | hi2
                · rw [hname] at hni
                  exact Or.inl (Or.inr (Option.some.inj hni).symm)
                · exact Or.inr ⟨i, hi2, hoki, hni⟩

/-- Does the per-document `try` body of `process_all_readmes` complete
for this item (i.e. `generate_summary` does not raise)? -/
def summaryOk (llm_type : String) (i : ReadmeItem) : Bool :=
  match generate_summary llm_type i.llm with
  | .ok _ => true
  | .error _ => false

theorem processReadme_snd (llm_type : String) (i : ReadmeItem) :
    (processReadme llm_type i).2 =
      if summaryOk llm_type i then 1 else 0 := by
  unfold processReadme summaryOk
  cases generate_summary llm_type i.llm <;> simp

theorem process_all_count (llm_type : String)
    (items : List ReadmeItem) :
    (process_all_readmes llm_type items).2 =
      items.countP (summaryOk llm_type) := by
  unfold process_all_readmes
  rw [process_all_readmes_run]
  induction items with
  | nil => simp
  | cons i rest ih =>
    simp only [List.map_cons, List.sum_cons, List.countP_cons,
      processReadme_snd] at *
    cases h : summaryOk llm_type i <;> simp [h] <;> omega

theorem countP_not_add {α : Type} (l : List α) (p : α → Bool) :
    l.countP p + l.countP (fun a => !p a) = l.length := by
  induction l with
  | nil => simp
  | cons a t ih =>
    simp only [List.countP_cons, List.length_cons]
    cases h : p a <;> simp [h] <;> omega

/-- C5 counterexample: in `collect_all_readmes` the name-key lookup on
the repo dict sits before the per-repository `try` block, so one record
without the `name` key raises `KeyError` out of the loop: the second
record — which would succeed — is never processed and no counts are
produced, contradicting the claim that one item's exception never
prevents the processing of subsequent items. -/
theorem C5_missing_name_aborts_batch :
    collect_all_readmes
      [{ nameField := none, fetch := some "content",
         save := .ok "p" },
       { nameField := some "good", fetch := some "content",
         save := .ok "database/readme_db/good/README.md" }] =
      .error () := rfl

/-- C5 (amended): exceptions raised inside the per-item `try` bodies
are isolated — provided every repository record carries the `name` key
(read before the `try`), the collector loop completes over the whole
batch with success/failure counts reflecting each item's individual
outcome, one bad item never blocking the rest; and
`process_all_readmes` isolates per-document failures unconditionally,
its success count and written records reflecting each document's own
outcome. -/
theorem C5_batch_error_isolation :
    (∀ items : List RepoItem, (∀ i ∈ items, i.nameField.isSome) →
      ∃ st', collectLoop ⟨0, 0, []⟩ items = .ok st'
        ∧ st'.success_count = items.countP repoOk
        ∧ st'.failed_count = items.countP (fun i => !repoOk i)
        ∧ st'.success_count + st'.failed_count = items.length)
    ∧ (∀ (llm_type : String) (items : List ReadmeItem),
        (process_all_readmes llm_type items).2 =
          items.countP (summaryOk llm_type)
        ∧ (process_all_readmes llm_type items).1 =
            items.flatMap (fun i => (processReadme llm_type i).1)) := by
  constructor
  · intro items hnames
    obtain ⟨st', hrun, h1, h2, h3, h4⟩ :=
      collectLoop_run items ⟨0, 0, []⟩ hnames
    refine ⟨st', hrun, ?_, ?_, ?_⟩
    · simpa using h1
    · simpa using h2
    · have h1' : st'.success_count = 0 + items.countP repoOk := h1
      have h2' : st'.failed_count =
          0 + items.countP (fun i => !repoOk i) := h2
      have := countP_not_add items repoOk
      omega
  · intro llm_type items
    refine ⟨process_all_count llm_type items, ?_⟩
    unfold process_all_readmes
    rw [process_all_readmes_run]
    simp

def c5ItemOk : RepoItem :=
  { nameField := some "ok-repo", fetch := some "content"
    save := .ok "database/readme_db/ok-repo/README.md" }

def c5ItemFail : RepoItem :=
  { nameField := some "bad-repo", fetch := some "content"
    save := .error () }

/-- C5 witness: a batch with a failing save followed by nothing
blocked — the loop completes with one success and one failure. -/
theorem C5_batch_error_isolation_witness :
    ∃ st', collectLoop ⟨0, 0, []⟩ [c5ItemFail, c5ItemOk] = .ok st'
      ∧ st'.success_count = [c5ItemFail, c5ItemOk].countP repoOk
      ∧ st'.failed_count =
          [c5ItemFail, c5ItemOk].countP (fun i => !repoOk i)
      ∧ st'.success_count + st'.failed_count =
          [c5ItemFail, c5ItemOk].length :=
  C5_batch_error_isolation.1 [c5ItemFail, c5ItemOk]
    (by
      intro i hi
      rcases List.mem_cons.mp hi with rfl | hi2
      · rfl
      · rcases List.mem_cons.mp hi2 with rfl | hi3
        · rfl
        · cases hi3)

/-- C6 counterexample: for the empty repository list
`collect_all_readmes` returns `{}` early and never calls
`save_collection_summary` — no run-summary is written, refuting the
claim's "(including the empty list)". -/
theorem C6_empty_list_writes_no_summary :
    collect_all_readmes [] = .ok ([], none) := rfl

/-- C6 (amended): for every nonempty repository list whose records all
carry the `name` key, `collect_all_readmes` writes exactly one
run-summary in which `total_repos` is the number of records,
`successful_collections + failed_collections = total_repos`,
`successful_collections` is the size of the name→path map, and the
map's keys are exactly the successfully collected repositories; for
the empty list no summary is written. -/
theorem C6_collection_summary_counts :
    ∀ items : List RepoItem, items ≠ [] →
      (∀ i ∈ items, i.nameField.isSome) →
      ∃ paths summary,
        collect_all_readmes items = .ok (paths, some summary)
        ∧ summary.total_repos = items.length
        ∧ summary.successful_collections + summary.failed_collections =
            items.length
        ∧ summary.successful_collections = paths.length
        ∧ summary.file_paths = paths
        ∧ (∀ n, n ∈ summary.collected_repos ↔
            ∃ i ∈ items, repoOk i = true ∧ i.nameField = some n) := by
  intro items hne hnames
  obtain ⟨st', hrun, h1, h2, h3, h4⟩ :=
    collectLoop_run items ⟨0, 0, []⟩ hnames
  have hempty : items.isEmpty = false := by
    cases items with
    | nil => exact absurd rfl hne
    | cons a l => rfl
  refine ⟨st'.file_paths, save_collection_summary items st'.file_paths,
    ?_, rfl, ?_, rfl, rfl, ?_⟩
  · unfold collect_all_readmes
    rw [hempty]
    simp only [Bool.false_eq_true, if_false, hrun]
  · have hc : items.countP repoOk ≤ items.length :=
      List.countP_le_length _
    have h3' : st'.file_paths.length ≤ 0 + items.countP repoOk := h3
    simp only [save_collection_summary]
    omega
  · intro n
    have h4' : n ∈ st'.file_paths.map Prod.fst ↔
        n ∈ ([] : List (String × String)).map Prod.fst ∨
        ∃ i ∈ items, repoOk i = true ∧ i.nameField = some n := h4 n
    simp only [save_collection_summary]
    simpa using h4'

def c6Item : RepoItem :=
  { nameField := some "r1", fetch := some "text"
    save := .ok "database/readme_db/r1/README.md" }

def c6ItemNoReadme : RepoItem :=
  { nameField := some "r2", fetch := none, save := .ok "unused" }

/-- C6 witness: a two-record batch (one success, one repository without
a README) gets exactly one summary with consistent counts. -/
theorem C6_collection_summary_counts_witness :
    ∃ paths summary,
      collect_all_readmes [c6Item, c6ItemNoReadme] =
        .ok (paths, some summary)
      ∧ summary.total_repos = [c6Item, c6ItemNoReadme].length
      ∧ summary.successful_collections + summary.failed_collections =
          [c6Item, c6ItemNoReadme].length
      ∧ summary.successful_collections = paths.length
      ∧ summary.file_paths = paths
      ∧ (∀ n, n ∈ summary.collected_repos ↔
          ∃ i ∈ [c6Item, c6ItemNoReadme], repoOk i = true ∧
            i.nameField = some n) :=
  C6_collection_summary_counts [c6Item, c6ItemNoReadme]
    (by simp)
    (by
      intro i hi
      rcases List.mem_cons.mp hi with rfl | hi2
      · rfl
      · rcases List.mem_cons.mp hi2 with rfl | hi3
        · rfl
        · cases hi3)

/-- C9 counterexample: nothing in `KnowledgeBaseLoader.__init__`
enforces `chunk_overlap < chunk_size` — an instance with
`chunk_overlap = chunk_size` (which even the third-party splitter
constructor admits, rejecting only strictly larger overlaps) is
constructible and splitting is still performed on it, so the strict
invariant does not hold of every instance on which splitting is
performed. -/
theorem C9_overlap_eq_size_constructible :
    ¬ ((mkKnowledgeBaseLoader "knowledge_db" "vector_db" 5 5).chunk_overlap
        < (mkKnowledgeBaseLoader "knowledge_db" "vector_db" 5 5).chunk_size)
    ∧ split_spans (mkKnowledgeBaseLoader "knowledge_db" "vector_db" 5 5)
        (String.data "abcdefgh") = [(0, 5), (1, 5), (2, 5), (3, 5)] := by
  constructor
  · decide
  · decide

/-- C9 (amended): the configurations the repository itself creates —
the constructor defaults and the `main()` call, both
`chunk_size = 500`, `chunk_overlap = 150` — satisfy
`chunk_overlap < chunk_size`; the constructor, however, does not
enforce the invariant for arbitrary arguments. -/
theorem C9_configured_overlap_lt_size :
    ∀ docs persist : String,
      (mkKnowledgeBaseLoader docs persist).chunk_overlap <
        (mkKnowledgeBaseLoader docs persist).chunk_size
      ∧ mainLoader.chunk_overlap < mainLoader.chunk_size := by
  intro docs persist
  exact ⟨(by decide : (150 : Nat) < 500), (by decide : (150 : Nat) < 500)⟩

theorem chunkSpans_head (size overlap : Nat) (seps : List (List Char))
    (t : List Char) (fuel pos : Nat) :
    (chunkSpans size overlap seps t fuel pos).head? = none ∨
      ∃ len, (chunkSpans size overlap seps t fuel pos).head? =
        some (pos, len) := by
  match fuel with
  | 0 => exact Or.inl rfl
  | fuel + 1 =>
    rw [chunkSpans]
    split
    · exact Or.inl rfl
    · split
      · exact Or.inr ⟨t.length - pos, rfl⟩
      · exact Or.inr ⟨cutPoint size seps (t.drop pos), rfl⟩

theorem chunkSpans_inv (size overlap : Nat) (seps : List (List Char))
    (t : List Char) (hsize : 1 ≤ size) :
    ∀ fuel pos,
      (∀ s ∈ chunkSpans size overlap seps t fuel pos,
        pos ≤ s.1 ∧ s.1 + s.2 ≤ t.length ∧ 1 ≤ s.2 ∧ s.2 ≤ size)
      ∧ List.Chain'
          (fun s1 s2 : Nat × Nat => s1.1 ≤ s2.1 ∧
            min (s1.1 + s1.2) (s2.1 + s2.2) - s2.1 ≤ overlap)
          (chunkSpans size overlap seps t fuel pos) := by
  intro fuel
  induction fuel with
  | zero =>
    intro pos
    exact ⟨by simp [chunkSpans], by simp [chunkSpans]⟩
  | succ fuel ih =>
    intro pos
    rw [chunkSpans]
    by_cases hend : t.length ≤ pos
    · rw [if_pos hend]
      exact ⟨by simp, by simp⟩
    · rw [if_neg hend]
      by_cases hfin : t.length - pos ≤ size
      · rw [if_pos hfin]
        refine ⟨?_, by simp⟩
        intro s hs
        rcases List.mem_singleton.mp hs with rfl
        exact ⟨Nat.le_refl _, by omega, by omega, by omega⟩
      · rw [if_neg hfin]
        have hc1 : 1 ≤ cutPoint size seps (t.drop pos) :=
          cutPoint_ge_one size seps (t.drop pos)
        have hc2 : cutPoint size seps (t.drop pos) ≤ max 1 size :=
          cutPoint_le size seps (t.drop pos)
        set c := cutPoint size seps (t.drop pos) with hcdef
        set next := pos + (c - min overlap (c - 1)) with hnext
        have hstep : pos + 1 ≤ next := by omega
        have hrec := ih next
        refine ⟨?_, ?_⟩
        · intro s hs
          rcases List.mem_cons.mp hs with rfl | hs2
          · exact ⟨Nat.le_refl _, by omega, by omega, by omega⟩
          · have := hrec.1 s hs2
            exact ⟨by omega, this.2⟩
        · rw [List.chain'_cons']
          refine ⟨?_, hrec.2⟩
          intro y hy
          rcases chunkSpans_head size overlap seps t fuel next with
            hh | ⟨l2, hh⟩
          · rw [hh] at hy; cases hy
          · rw [hh] at hy
            rcases Option.mem_some_iff.mp hy with rfl
            exact ⟨by omega, by simp only []; omega⟩

theorem span_share (t : List Char) (p c q c2 : Nat) (hpq : p ≤ q) :
    (((t.drop p).take c).drop (q - p)).take
        (min (p + c) (q + c2) - q) =
      ((t.drop q).take c2).take (min (p + c) (q + c2) - q) := by
  rw [List.drop_take, List.drop_drop]
  have hq : p + (q - p) = q := by omega
  rw [hq]
  rw [List.take_take, List.take_take]
  congr 1
  omega

/-- C8: for every chunking call with the configured splitter
(separator priority: paragraph break, line break, space, empty
string) and positive `chunk_size`, every produced chunk has length at
most `chunk_size` characters, and any two chunks contiguous in the
same source document share boundary text of length at most
`chunk_overlap` — the boundary being literally shared: the overlap
region read inside the earlier chunk equals the prefix of the later
chunk of that length. -/
theorem C8_chunk_size_and_overlap_bounds :
    ∀ (docs persist : String) (size overlap : Nat), 1 ≤ size →
      ∀ t : List Char,
        (∀ s ∈ split_spans
            (mkKnowledgeBaseLoader docs persist size overlap) t,
          (spanText t s).length ≤ size)
        ∧ List.Chain'
            (fun s1 s2 : Nat × Nat =>
              min (s1.1 + s1.2) (s2.1 + s2.2) - s2.1 ≤ overlap ∧
              ((spanText t s1).drop (s2.1 - s1.1)).take
                  (min (s1.1 + s1.2) (s2.1 + s2.2) - s2.1) =
                (spanText t s2).take
                  (min (s1.1 + s1.2) (s2.1 + s2.2) - s2.1))
            (split_spans
              (mkKnowledgeBaseLoader docs persist size overlap) t) := by
  intro docs persist size overlap hsize t
  have hinv := chunkSpans_inv size overlap
    ((["\n\n", "\n", " ", ""] : List String).map String.data) t hsize
    t.length 0
  constructor
  · intro s hs
    have hb := hinv.1 s hs
    unfold spanText
    rw [List.length_take]
    have : s.2 ≤ size := hb.2.2.2
    omega
  · refine List.Chain'.imp ?_ hinv.2
    intro a b hab
    refine ⟨hab.2, ?_⟩
    unfold spanText
    exact span_share t a.1 a.2 b.1 b.2 hab.1

/-- C8 witness: `chunk_size = 5`, `chunk_overlap = 2` on
`"ab cd ef gh"`: all four chunks have length at most 5 and adjacent
chunks share at most 2 boundary characters. -/
theorem C8_chunk_size_and_overlap_bounds_witness :
    1 ≤ 5 ∧
      ((∀ s ∈ split_spans (mkKnowledgeBaseLoader "d" "p" 5 2)
          (String.data "ab cd ef gh"),
        (spanText (String.data "ab cd ef gh") s).length ≤ 5)
      ∧ List.Chain'
          (fun s1 s2 : Nat × Nat =>
            min (s1.1 + s1.2) (s2.1 + s2.2) - s2.1 ≤ 2 ∧
            ((spanText (String.data "ab cd ef gh") s1).drop
                (s2.1 - s1.1)).take
                (min (s1.1 + s1.2) (s2.1 + s2.2) - s2.1) =
              (spanText (String.data "ab cd ef gh") s2).take
                (min (s1.1 + s1.2) (s2.1 + s2.2) - s2.1))
          (split_spans (mkKnowledgeBaseLoader "d" "p" 5 2)
            (String.data "ab cd ef gh"))) :=
  ⟨by decide,
    C8_chunk_size_and_overlap_bounds "d" "p" 5 2 (by decide)
      (String.data "ab cd ef gh")⟩

/-! ### C2, URL pass: after `url_pattern.sub` no `url_pattern` match
remains in the text. -/

theorem matchUrlLen_some_head {l : List Char} {n : Nat}
    (h : matchUrlLen l = some n) : ∃ r, l = 'h' :: r := by
  unfold matchUrlLen at h
  split at h
  case isTrue h8 =>
    match l with
    | [] => simp at h8
    | c :: r =>
      rw [List.take_succ_cons] at h8
      injection h8 with h1 _
      exact ⟨r, by rw [h1]⟩
  case isFalse h8 =>
    split at h
    case isTrue h7 =>
      match l with
      | [] => simp at h7
      | c :: r =>
        rw [List.take_succ_cons] at h7
        injection h7 with h1 _
        exact ⟨r, by rw [h1]⟩
    case isFalse h7 => exact absurd h (by simp)

theorem matchUrlLen_cons_ne_h {c : Char} (hc : c ≠ 'h')
    (l : List Char) : matchUrlLen (c :: l) = none := by
  cases hm : matchUrlLen (c :: l) with
  | none => rfl
  | some n =>
    obtain ⟨r, hr⟩ := matchUrlLen_some_head hm
    injection hr with h1 _
    exact absurd h1 hc

theorem hasUrl_append_no_h : ∀ A B : List Char,
    (∀ c ∈ A, c ≠ 'h') → hasUrl (A ++ B) = hasUrl B := by
  intro A
  induction A with
  | nil => intro B _; rfl
  | cons a A ih =>
    intro B hA
    have ha : a ≠ 'h' := hA a (List.mem_cons_self _ _)
    have hcons : hasUrl (a :: A ++ B) =
        ((matchUrlLen (a :: (A ++ B))).isSome || hasUrl (A ++ B)) := rfl
    rw [hcons, matchUrlLen_cons_ne_h ha,
      ih B (fun c hc => hA c (List.mem_cons_of_mem _ hc))]
    rfl

theorem urlRun_cons (c : Char) (l : List Char) :
    urlRun (c :: l) = if isUrlChar c then urlRun l + 1 else 0 := by
  unfold urlRun
  rw [List.takeWhile_cons]
  split <;> simp

theorem matchUrlLen_some_shape {X : List Char} {n : Nat}
    (h : matchUrlLen ('h' :: X) = some n) :
    (X.take 7 = ['t', 't', 'p', 's', ':', '/', '/'] ∧
      0 < urlRun (X.drop 7))
    ∨ (X.take 6 = ['t', 't', 'p', ':', '/', '/'] ∧
      0 < urlRun (X.drop 6)) := by
  unfold matchUrlLen at h
  split at h
  case isTrue h8 =>
    rw [List.take_succ_cons] at h8
    injection h8 with _ h8'
    split at h
    case isTrue hrun => exact Or.inl ⟨h8', hrun⟩
    case isFalse hrun => exact absurd h (by simp)
  case isFalse h8 =>
    split at h
    case isTrue h7 =>
      rw [List.take_succ_cons] at h7
      injection h7 with _ h7'
      split at h
      case isTrue hrun => exact Or.inr ⟨h7', hrun⟩
      case isFalse hrun => exact absurd h (by simp)
    case isFalse h7 => exact absurd h (by simp)

theorem urlSub_inversion : ∀ w l z : List Char,
    '[' ∉ w → urlSub l = w ++ z →
      l.take w.length = w
      ∧ (∀ i, i < w.length → matchUrlLen (l.drop i) = none)
      ∧ z = urlSub (l.drop w.length) := by
  intro w
  induction w with
  | nil =>
    intro l z _ heq
    exact ⟨rfl, fun i hi => absurd hi (by simp),
      by simpa using heq.symm⟩
  | cons a w ih =>
    intro l z hnotin heq
    match l with
    | [] => rw [urlSub_nil] at heq; exact absurd heq (by simp)
    | c :: rest =>
      cases hm : matchUrlLen (c :: rest) with
      | some n =>
        rw [urlSub_match hm] at heq
        injection heq with h1 _
        exact absurd (by rw [← h1]; exact List.mem_cons_self _ _) hnotin
      | none =>
        rw [urlSub_nomatch hm] at heq
        injection heq with h1 h2
        obtain ⟨ht, hnm, hz⟩ :=
          ih rest z (fun hmem => hnotin (List.mem_cons_of_mem _ hmem)) h2
        refine ⟨?_, ?_, ?_⟩
        · simp only [List.length_cons, List.take_succ_cons]
          rw [ht, h1]
        · intro i hi
          match i with
          | 0 => exact hm
          | i + 1 =>
            exact hnm i (by simp only [List.length_cons] at hi; omega)
        · simpa using hz

theorem urlRun_urlSub_zero {u : List Char} (hz : urlRun u = 0) :
    urlRun (urlSub u) = 0 := by
  match u with
  | [] => rw [urlSub_nil]; exact hz
  | e :: r2 =>
    rw [urlRun_cons] at hz
    have he : isUrlChar e = false := by
      by_cases h : isUrlChar e
      · rw [if_pos h] at hz; omega
      · simpa using h
    cases hm : matchUrlLen (e :: r2) with
    | some n =>
      obtain ⟨r, hr⟩ := matchUrlLen_some_head hm
      injection hr with h1 _
      rw [h1] at he
      exact absurd he (by decide)
    | none =>
      rw [urlSub_nomatch hm, urlRun_cons, he]
      simp

theorem matchUrlLen_urlSub_none {rest : List Char}
    (hm : matchUrlLen ('h' :: rest) = none) :
    matchUrlLen ('h' :: urlSub rest) = none := by
  cases hmm : matchUrlLen ('h' :: urlSub rest) with
  | none => rfl
  | some n =>
    exfalso
    rcases matchUrlLen_some_shape hmm with ⟨htake, hrun⟩ | ⟨htake, hrun⟩
    · have hdecomp : urlSub rest =
          ['t', 't', 'p', 's', ':', '/', '/'] ++ (urlSub rest).drop 7 := by
        conv_lhs => rw [← List.take_append_drop 7 (urlSub rest)]
        rw [htake]
      obtain ⟨ht, _, hz⟩ := urlSub_inversion
        ['t', 't', 'p', 's', ':', '/', '/'] rest ((urlSub rest).drop 7)
        (by decide) hdecomp
      have hlen7 : (['t', 't', 'p', 's', ':', '/', '/'] :
          List Char).length = 7 := rfl
      rw [hlen7] at ht hz
      have hcond : ('h' :: rest).take 8 =
          ['h', 't', 't', 'p', 's', ':', '/', '/'] := by
        rw [List.take_succ_cons, ht]
      unfold matchUrlLen at hm
      rw [if_pos hcond] at hm
      have hrz : urlRun (rest.drop 7) = 0 := by
        by_cases h : 0 < urlRun (('h' :: rest).drop 8)
        · rw [if_pos h] at hm; exact absurd hm (by simp)
        · have hdd : ('h' :: rest).drop 8 = rest.drop 7 := rfl
          rw [hdd] at h; omega
      have hfin := urlRun_urlSub_zero hrz
      rw [← hz] at hfin
      omega
    · have hdecomp : urlSub rest =
          ['t', 't', 'p', ':', '/', '/'] ++ (urlSub rest).drop 6 := by
        conv_lhs => rw [← List.take_append_drop 6 (urlSub rest)]
        rw [htake]
      obtain ⟨ht, _, hz⟩ := urlSub_inversion
        ['t', 't', 'p', ':', '/', '/'] rest ((urlSub rest).drop 6)
        (by decide) hdecomp
      have hlen6 : (['t', 't', 'p', ':', '/', '/'] :
          List Char).length = 6 := rfl
      rw [hlen6] at ht hz
      have hcond8 : ¬ ('h' :: rest).take 8 =
          ['h', 't', 't', 'p', 's', ':', '/', '/'] := by
        intro hcontra
        rw [List.take_succ_cons] at hcontra
        injection hcontra with _ h8'
        have h6 : rest.take 6 = ['t', 't', 'p', 's', ':', '/'] := by
          have h66 : rest.take 6 = (rest.take 7).take 6 := by
            rw [List.take_take]
            norm_num
          rw [h66, h8']
          rfl
        rw [h6] at ht
        exact absurd ht (by decide)
      have hcond : ('h' :: rest).take 7 =
          ['h', 't', 't', 'p', ':', '/', '/'] := by
        rw [List.take_succ_cons, ht]
      unfold matchUrlLen at hm
      rw [if_neg hcond8, if_pos hcond] at hm
      have hrz : urlRun (rest.drop 6) = 0 := by
        by_cases h : 0 < urlRun (('h' :: rest).drop 7)
        · rw [if_pos h] at hm; exact absurd hm (by simp)
        · have hdd : ('h' :: rest).drop 7 = rest.drop 6 := rfl
          rw [hdd] at h; omega
      have hfin := urlRun_urlSub_zero hrz
      rw [← hz] at hfin
      omega

theorem urlSub_urlfree : ∀ (n : Nat) (l : List Char), l.length ≤ n →
    hasUrl (urlSub l) = false := by
  intro n
  induction n with
  | zero =>
    intro l hl
    have hnil : l = [] := List.length_eq_zero.mp (by omega)
    subst hnil
    rfl
  | succ n ih =>
    intro l hl
    match l with
    | [] => rfl
    | c :: rest =>
      simp only [List.length_cons] at hl
      cases hm : matchUrlLen (c :: rest) with
      | some nn =>
        have hnn := matchUrlLen_pos hm
        rw [urlSub_match hm]
        have hdl : ((c :: rest).drop nn).length ≤ n := by
          simp only [List.length_drop, List.length_cons]; omega
        have hrec := ih _ hdl
        have hshape : ('[' :: 'U' :: 'R' :: 'L' :: ']' ::
            urlSub ((c :: rest).drop nn)) =
            ['[', 'U', 'R', 'L', ']'] ++ urlSub ((c :: rest).drop nn) :=
          rfl
        rw [hshape, hasUrl_append_no_h _ _ (by decide)]
        exact hrec
      | none =>
        rw [urlSub_nomatch hm]
        show ((matchUrlLen (c :: urlSub rest)).isSome ||
          hasUrl (urlSub rest)) = false
        rw [ih rest (by omega)]
        by_cases hc : c = 'h'
        · subst hc
          rw [matchUrlLen_urlSub_none hm]
          rfl
        · rw [matchUrlLen_cons_ne_h hc]
          rfl

/-! ### C2, sensitive-word passes: each pass inserts one redaction
token per replacement and never destroys an existing token (the token
characters are case-insensitively disjoint from every listed word's
characters), so the final token count dominates the occurrence count
of the first word in the URL-redacted text. -/

theorem litStartsWith_nil : ∀ X : List Char,
    litStartsWith X [] = true := by
  intro X
  cases X <;> rfl

theorem litStartsWith_append_self :
    ∀ p X : List Char, litStartsWith (p ++ X) p = true := by
  intro p
  induction p with
  | nil => intro X; exact litStartsWith_nil _
  | cons a p ih =>
    intro X
    simp [litStartsWith, ih]

theorem litStartsWith_take :
    ∀ (u X : List Char), litStartsWith X u = true →
      X.take u.length = u := by
  intro u
  induction u with
  | nil => intro X _; rfl
  | cons a u ih =>
    intro X h
    match X with
    | [] => exact absurd h (by simp [litStartsWith])
    | x :: X' =>
      simp only [litStartsWith, Bool.and_eq_true, decide_eq_true_eq] at h
      simp only [List.length_cons, List.take_succ_cons]
      rw [h.1, ih X' h.2]

theorem countOcc_append_no_head (t0 : Char) (ts : List Char) :
    ∀ u X : List Char, (∀ a ∈ u, a ≠ t0) →
      countOcc t0 ts (u ++ X) = countOcc t0 ts X := by
  intro u
  induction u with
  | nil => intro X _; rfl
  | cons a u ih =>
    intro X hu
    have ha : a ≠ t0 := hu a (List.mem_cons_self _ _)
    have hs : litStartsWith (a :: (u ++ X)) (t0 :: ts) = false := by
      simp [litStartsWith, ha]
    rw [List.cons_append, countOcc_nomatch hs,
      ih X (fun b hb => hu b (List.mem_cons_of_mem _ hb))]

theorem countOcc_tok_cons (t0 : Char) (ts : List Char) (X : List Char) :
    countOcc t0 ts ((t0 :: ts) ++ X) = 1 + countOcc t0 ts X := by
  have hs : litStartsWith ((t0 :: ts) ++ X) (t0 :: ts) = true :=
    litStartsWith_append_self (t0 :: ts) X
  rw [List.cons_append] at hs ⊢
  rw [countOcc_match hs, List.drop_left]

theorem countOcc_cons_ge (t0 : Char) (ts : List Char)
    (hts : t0 ∉ ts) (c : Char) (X : List Char) :
    countOcc t0 ts X ≤ countOcc t0 ts (c :: X) := by
  by_cases hs : litStartsWith (c :: X) (t0 :: ts)
  · simp only [litStartsWith, Bool.and_eq_true, decide_eq_true_eq] at hs
    have htake : X.take ts.length = ts := litStartsWith_take ts X hs.2
    have hdec : X = ts ++ X.drop ts.length := by
      conv_lhs => rw [← List.take_append_drop ts.length X]
      rw [htake]
    have hXeq : countOcc t0 ts X = countOcc t0 ts (X.drop ts.length) := by
      conv_lhs => rw [hdec]
      exact countOcc_append_no_head t0 ts ts _
        (fun a ha => fun hcontra => hts (hcontra ▸ ha))
    have hmatch : litStartsWith (c :: X) (t0 :: ts) = true := by
      simp [litStartsWith, hs.1, hs.2]
    rw [countOcc_match hmatch, hXeq]
    omega
  · rw [countOcc_nomatch (by simpa using hs)]

theorem ciStartsWith_region_ne (t0 : Char) :
    ∀ (u X : List Char), ciStartsWith X u = true →
      (∀ d ∈ u, ciEq t0 d = false) →
      ∀ a ∈ X.take u.length, a ≠ t0 := by
  intro u
  induction u with
  | nil => intro X _ _ a ha; exact absurd ha (by simp)
  | cons d u ih =>
    intro X h hd a ha
    match X with
    | [] => exact absurd h (by simp [ciStartsWith])
    | x :: X' =>
      simp only [ciStartsWith, Bool.and_eq_true] at h
      simp only [List.length_cons, List.take_succ_cons,
        List.mem_cons] at ha
      rcases ha with rfl | ha2
      · intro hcontra
        subst hcontra
        have := hd d (List.mem_cons_self _ _)
        rw [h.1] at this
        cases this
      · exact ih X' h.2
          (fun e he => hd e (List.mem_cons_of_mem _ he)) a ha2

theorem ciSub_append_no_ci (w0 : Char) (ws repl : List Char) :
    ∀ u X : List Char, (∀ a ∈ u, ciEq a w0 = false) →
      ciSub w0 ws repl (u ++ X) = u ++ ciSub w0 ws repl X := by
  intro u
  induction u with
  | nil => intro X _; rfl
  | cons a u ih =>
    intro X hu
    have ha : ciEq a w0 = false := hu a (List.mem_cons_self _ _)
    have hs : ciStartsWith (a :: (u ++ X)) (w0 :: ws) = false := by
      simp [ciStartsWith, ha]
    rw [List.cons_append, ciSub_nomatch repl hs,
      ih X (fun b hb => hu b (List.mem_cons_of_mem _ hb))]
    rfl

theorem ciCount_append_no_ci (w0 : Char) (ws : List Char) :
    ∀ u X : List Char, (∀ a ∈ u, ciEq a w0 = false) →
      ciCount w0 ws (u ++ X) = ciCount w0 ws X := by
  intro u
  induction u with
  | nil => intro X _; rfl
  | cons a u ih =>
    intro X hu
    have ha : ciEq a w0 = false := hu a (List.mem_cons_self _ _)
    have hs : ciStartsWith (a :: (u ++ X)) (w0 :: ws) = false := by
      simp [ciStartsWith, ha]
    rw [List.cons_append, ciCount_nomatch hs,
      ih X (fun b hb => hu b (List.mem_cons_of_mem _ hb))]

theorem ciSub_countOcc_ge (t0 : Char) (ts : List Char) (w0 : Char)
    (ws : List Char) (hts : t0 ∉ ts)
    (hw1 : ∀ d ∈ w0 :: ws, ciEq t0 d = false)
    (hw2 : ∀ a ∈ ts, ciEq a w0 = false) :
    ∀ (n : Nat) (l : List Char), l.length ≤ n →
      countOcc t0 ts l + ciCount w0 ws l ≤
        countOcc t0 ts (ciSub w0 ws (t0 :: ts) l) := by
  intro n
  induction n with
  | zero =>
    intro l hl
    have hnil : l = [] := List.length_eq_zero.mp (by omega)
    subst hnil
    simp [ciSub_nil, countOcc_nil, ciCount_nil]
  | succ n ih =>
    intro l hl
    match l with
    | [] => simp [ciSub_nil, countOcc_nil, ciCount_nil]
    | c :: rest =>
      simp only [List.length_cons] at hl
      by_cases hciS : ciStartsWith (c :: rest) (w0 :: ws)
      · rw [ciSub_match (t0 :: ts) hciS]
        rw [countOcc_tok_cons]
        have hih := ih (rest.drop ws.length)
          (by simp only [List.length_drop]; omega)
        rw [ciCount_match hciS]
        have hregion : ∀ a ∈ (c :: rest).take (ws.length + 1),
            a ≠ t0 := by
          have := ciStartsWith_region_ne t0 (w0 :: ws) (c :: rest)
            hciS hw1
          simpa using this
        have hcOcc : countOcc t0 ts (c :: rest) =
            countOcc t0 ts (rest.drop ws.length) := by
          conv_lhs =>
            rw [← List.take_append_drop (ws.length + 1) (c :: rest)]
          exact countOcc_append_no_head t0 ts _ _ hregion
        rw [hcOcc]
        omega
      · have hciS' : ciStartsWith (c :: rest) (w0 :: ws) = false := by
          simpa using hciS
        rw [ciSub_nomatch (t0 :: ts) hciS']
        rw [ciCount_nomatch hciS']
        by_cases hlit : litStartsWith (c :: rest) (t0 :: ts)
        · simp only [litStartsWith, Bool.and_eq_true,
            decide_eq_true_eq] at hlit
          have htake : rest.take ts.length = ts :=
            litStartsWith_take ts rest hlit.2
          have hdec : rest = ts ++ rest.drop ts.length := by
            conv_lhs => rw [← List.take_append_drop ts.length rest]
            rw [htake]
          have hY : ciSub w0 ws (t0 :: ts) rest =
              ts ++ ciSub w0 ws (t0 :: ts) (rest.drop ts.length) := by
            conv_lhs => rw [hdec]
            exact ciSub_append_no_ci w0 ws (t0 :: ts) ts _ hw2
          have hcnt : ciCount w0 ws rest =
              ciCount w0 ws (rest.drop ts.length) := by
            conv_lhs => rw [hdec]
            exact ciCount_append_no_ci w0 ws ts _ hw2
          have hmatch : litStartsWith (c :: rest) (t0 :: ts) = true := by
            simp [litStartsWith, hlit.1, hlit.2]
          rw [countOcc_match hmatch]
          rw [hY, hlit.1]
          have hck : countOcc t0 ts
              (t0 :: (ts ++ ciSub w0 ws (t0 :: ts)
                (rest.drop ts.length))) =
              1 + countOcc t0 ts
                (ciSub w0 ws (t0 :: ts) (rest.drop ts.length)) := by
            rw [← List.cons_append]
            exact countOcc_tok_cons t0 ts _
          rw [hck, hcnt]
          have hih := ih (rest.drop ts.length)
            (by simp only [List.length_drop]; omega)
          omega
        · have hlit' : litStartsWith (c :: rest) (t0 :: ts) = false := by
            simpa using hlit
          rw [countOcc_nomatch hlit']
          have hih := ih rest (by omega)
          have hge := countOcc_cons_ge t0 ts hts c
            (ciSub w0 ws (t0 :: ts) rest)
          omega

theorem countOcc_subWords_ge :
    ∀ (words : List String) (x : List Char),
      (∀ w ∈ words, ∀ a ∈ redactToken, ∀ d ∈ w.data,
        ciEq a d = false) →
      countOcc '[' ['敏', '感', '信', '息', ']'] x ≤
        countOcc '[' ['敏', '感', '信', '息', ']']
          (words.foldl (subWord redactToken) x) := by
  intro words
  induction words with
  | nil => intro x _; exact Nat.le_refl _
  | cons w rest ih =>
    intro x hdisj
    rw [List.foldl_cons]
    have hw := hdisj w (List.mem_cons_self _ _)
    have hrest : ∀ w' ∈ rest, ∀ a ∈ redactToken, ∀ d ∈ w'.data,
        ciEq a d = false :=
      fun w' hw' => hdisj w' (List.mem_cons_of_mem _ hw')
    refine Nat.le_trans ?_ (ih (subWord redactToken x w) hrest)
    unfold subWord
    match hwd : w.data with
    | [] => exact Nat.le_refl _
    | w0 :: ws =>
      have hw' := hwd ▸ hw
      have hpass := ciSub_countOcc_ge '[' ['敏', '感', '信', '息', ']']
        w0 ws (by decide)
        (fun d hd => hw' '[' (List.mem_cons_self _ _) d hd)
        (fun a ha => hw' a (List.mem_cons_of_mem _ ha) w0
          (List.mem_cons_self _ _))
        x.length x (Nat.le_refl _)
      exact Nat.le_trans (Nat.le_add_right _ _)
        (by simpa using hpass)

set_option maxHeartbeats 2000000 in
/-- C2 counterexample: the input `"http://a http://密码"` contains a
well-formed URL (`http://a` matches `url_pattern`), yet the filtered
output `"[URL] http://[敏感信息]"` still contains a `url_pattern` match
(`http://[` — `[` is in the pattern's character class, and the second
`http://` survives URL redaction because `密` is not, so redacting
`密码` afterwards re-creates a match).  And on `"access_token"` the
URL-redacted text contains two case-insensitive sensitive-word
occurrences (`token` and `access_token`) but the output
`"access_[敏感信息]"` contains only one redaction token, because the
earlier `token` pass destroys the `access_token` occurrence.  Both
halves of the claim as stated are therefore false. -/
theorem C2_filter_content_counterexample :
    hasUrl (String.data "http://a http://密码") = true
    ∧ hasUrl (filter_content "http://a http://密码").data = true
    ∧ countOcc '[' ['敏', '感', '信', '息', ']']
        (filter_content "access_token").data = 1
    ∧ ciCount 't' ['o', 'k', 'e', 'n']
        (urlSub (String.data "access_token"))
      + ciCount 'a' ['c', 'c', 'e', 's', 's', '_', 't', 'o', 'k', 'e', 'n']
        (urlSub (String.data "access_token")) = 2 := by
  refine ⟨by decide, by decide, by decide, by decide⟩

/-- C2 (amended): `filter_content` replaces URL-pattern matches first
and performs the case-insensitive sensitive-word replacements second
(in list order); after the URL pass the intermediate text contains no
substring matching the URL pattern — but the word passes may
re-create a URL-pattern match in the final output, and the final
redaction-token count is only guaranteed to be at least the greedy
non-overlapping case-insensitive occurrence count of the first listed
word (`密码`) in the URL-redacted text, not of all listed words, since
listed words overlap each other. -/
theorem C2_filter_content_url_first :
    ∀ content : String,
      hasUrl (urlSub content.data) = false
      ∧ filter_content content =
          ⟨sensitive_words.foldl (subWord redactToken)
            (urlSub content.data)⟩
      ∧ ciCount '密' ['码'] (urlSub content.data) ≤
          countOcc '[' ['敏', '感', '信', '息', ']']
            (filter_content content).data := by
  intro content
  refine ⟨urlSub_urlfree content.data.length content.data
    (Nat.le_refl _), rfl, ?_⟩
  have hstr : filter_content content =
      (⟨sensitive_words.foldl (subWord redactToken)
        (urlSub content.data)⟩ : String) := rfl
  have hdata : (filter_content content).data =
      sensitive_words.foldl (subWord redactToken)
        (urlSub content.data) := by
    rw [hstr]
  rw [hdata]
  rw [show sensitive_words = "密码" ::
    ["password", "token", "secret", "key", "私钥", "访问令牌",
     "api_key", "access_token", "private_key", "秘钥"] from rfl]
  rw [List.foldl_cons]
  have hfirst : subWord redactToken (urlSub content.data) "密码" =
      ciSub '密' ['码'] redactToken (urlSub content.data) := rfl
  have hpass := ciSub_countOcc_ge '[' ['敏', '感', '信', '息', ']']
    '密' ['码'] (by decide) (by decide) (by decide)
    (urlSub content.data).length (urlSub content.data) (Nat.le_refl _)
  have hchain := countOcc_subWords_ge
    ["password", "token", "secret", "key", "私钥", "访问令牌",
     "api_key", "access_token", "private_key", "秘钥"]
    (subWord redactToken (urlSub content.data) "密码") (by decide)
  rw [hfirst] at hchain
  have htok : ('[' :: ['敏', '感', '信', '息', ']'] : List Char) =
      redactToken := rfl
  rw [htok] at hpass
  have hpass' : countOcc '[' ['敏', '感', '信', '息', ']']
        (urlSub content.data)
      + ciCount '密' ['码'] (urlSub content.data) ≤
      countOcc '[' ['敏', '感', '信', '息', ']']
        (ciSub '密' ['码'] redactToken (urlSub content.data)) := hpass
  rw [hfirst]
  omega

end ChatDatabase
